import Mathlib

/-!
Shallow embedding of `dbt/contracts/graph/manifest.py`: the manifest data
model (nodes, macros, docs), edge derivation (`build_edges`), name
resolution (`find_docs_by_name`, `find_macro_by_name`,
`get_materialization_macro`), node registration (`add_nodes`) and patch
merging (`patch_nodes`).

Python dictionaries are embedded as insertion-ordered association lists
`List (String × α)` with the dictionary operations used by the source:
lookup (first occurrence), insert (overwrite in place, else append) and
`pop`.  Mutation is embedded as explicit state passing; a raised exception
becomes an `Except`/`Option` error value.
-/

set_option autoImplicit false

namespace Dbt

/-- Resource types, from `dbt.node_types.NodeType` (referenced by the source;
the enum members used by `manifest.py` are `Model`, `Macro` and `Operation`). -/
inductive NodeType where
  | Model
  | Test
  | Analysis
  | Archive
  | Seed
  | Macro
  | Operation
  deriving DecidableEq, Repr

/-- A patch payload (`ParsedNodePatch`): keyed by model name, carries
descriptive metadata to merge into a node. -/
structure ParsedNodePatch where
  name : String
  description : String
  deriving DecidableEq, Repr

/-- A parsed/compiled node record as `manifest.py` uses it: a unique id, an
identifying name and package, a resource type, the dependency-key list
`depends_on_nodes`, and descriptive metadata (the part a patch overwrites). -/
structure ParsedNode where
  unique_id : String
  name : String
  package_name : String
  resource_type : NodeType
  depends_on_nodes : List String
  description : String
  deriving DecidableEq, Repr

/-- Modelled from the spec: `ParsedNode.patch` (the file
`dbt/contracts/graph/parsed.py` is not among the sources) — applying a patch
to a node "mutates its descriptive metadata in place"; in state-passing form
it returns the node with the patch's descriptive metadata written in. -/
def ParsedNode.patch (n : ParsedNode) (p : ParsedNodePatch) : ParsedNode :=
  { n with description := p.description }

/-- A parsed macro record (`ParsedMacro`): a lookup target identified by
name and package, with a resource type distinguishing macros from
operations. -/
structure ParsedMacro where
  unique_id : String
  name : String
  package_name : String
  resource_type : NodeType
  deriving DecidableEq, Repr

/-- A parsed documentation record (`ParsedDocumentation`). -/
structure ParsedDocumentation where
  name : String
  package_name : String
  block_contents : String
  deriving DecidableEq, Repr

/-- Errors raised by the embedded operations.  `invalidDocumentationName`
is `raise_compiler_error` for an invalid documentation name.  `nameError`
is Python's `NameError`: `add_nodes` calls the bare name
`raise_duplicate_resource_name`, which `manifest.py` never imports (its
only import from `dbt.exceptions` is `ValidationException`; contrast the
qualified `dbt.exceptions.raise_compiler_error` call in
`find_docs_by_name`), so a key collision raises a `NameError` that names
just the missing global and carries neither node's identifying
information. -/
inductive CompilerError where
  | invalidDocumentationName (msg : String) (doc : ParsedDocumentation)
  | nameError (missing : String)
  deriving DecidableEq, Repr

/-! ### Python dictionaries as association lists -/

/-- `d.get(k)` / `k in d`: the value at the first (for a dict: only)
occurrence of key `k`, or `none`. -/
def dictGet {α : Type} : List (String × α) → String → Option α
  | [], _ => none
  | (k, v) :: rest, key => if k = key then some v else dictGet rest key

/-- `d[k] = v`: overwrite the value at an existing key in place, else append
the new binding at the end (Python dicts preserve insertion order). -/
def dictInsert {α : Type} : List (String × α) → String → α → List (String × α)
  | [], key, v => [(key, v)]
  | (k, w) :: rest, key, v =>
    if k = key then (key, v) :: rest else (k, w) :: dictInsert rest key v

/-- `d.pop(k, None)`: the value at key `k` (or `none`) together with the
dictionary with that binding removed (unchanged when the key is absent). -/
def dictPop {α : Type} : List (String × α) → String → Option α × List (String × α)
  | [], _ => (none, [])
  | (k, v) :: rest, key =>
    if k = key then (some v, rest)
    else
      let r := dictPop rest key
      (r.1, (k, v) :: r.2)

/-- `d[k].append(x)` where `d` maps keys to lists: appends at an existing
key, and fails (Python: `KeyError`) when the key is absent. -/
def dictAppendAt : List (String × List String) → String → String →
    Option (List (String × List String))
  | [], _, _ => none
  | (k, vs) :: rest, key, x =>
    if k = key then some ((k, vs ++ [x]) :: rest)
    else (dictAppendAt rest key x).map (fun r => (k, vs) :: r)

/-! ### `build_edges` -/

/-- The dict comprehension `{node.unique_id: [] for node in nodes}`:
pre-populates the forward-edge dict with an empty list per node key. -/
def initForward (nodes : List ParsedNode) : List (String × List String) :=
  nodes.foldl (fun acc n => dictInsert acc n.unique_id []) []

/-- The inner loop of `build_edges`: for each `unique_id` in
`node.depends_on_nodes`, `forward_edges[unique_id].append(node.unique_id)`;
fails at the first dependency key absent from the forward dict. -/
def appendForward (fwd : List (String × List String)) :
    List String → String → Option (List (String × List String))
  | [], _ => some fwd
  | d :: rest, uid =>
    match dictAppendAt fwd d uid with
    | none => none
    | some fwd2 => appendForward fwd2 rest uid

/-- The outer loop of `build_edges`, threading the forward and backward
dicts through the nodes in order. -/
def buildEdgesLoop : List ParsedNode → List (String × List String) →
    List (String × List String) →
    Option (List (String × List String) × List (String × List String))
  | [], fwd, bwd => some (fwd, bwd)
  | n :: rest, fwd, bwd =>
    let bwd2 := dictInsert bwd n.unique_id n.depends_on_nodes
    match appendForward fwd n.depends_on_nodes n.unique_id with
    | none => none
    | some fwd2 => buildEdgesLoop rest fwd2 bwd2

/-- `build_edges(nodes)`: builds the forward and backward edge dicts.
`backward_edges[node.unique_id] = node.depends_on_nodes[:]` (a copy), and
each dependency appends the depending node's id to its forward list.  A
dependency key absent from the node set raises `KeyError` in the source;
here the result is `none`. -/
def build_edges (nodes : List ParsedNode) :
    Option (List (String × List String) × List (String × List String)) :=
  buildEdgesLoop nodes (initForward nodes) []

/-! ### The manifest and its operations -/

/-- The manifest: three insertion-ordered mappings (unique id to node,
macro, doc) plus the generation timestamp. -/
structure Manifest where
  nodes : List (String × ParsedNode)
  macros : List (String × ParsedMacro)
  docs : List (String × ParsedDocumentation)
  generated_at : String
  deriving DecidableEq, Repr

/-- The structural contract emitted by `Manifest.serialize`.  The per-entity
`v.serialize()` bodies are not among the sources; modelled from the spec
("serialized node-by-key map") as the identity on the stored records, which
leaves the fields the claims speak about — `parent_map` and `child_map` —
exact. -/
structure SerializedManifest where
  nodes : List (String × ParsedNode)
  macros : List (String × ParsedMacro)
  docs : List (String × ParsedDocumentation)
  parent_map : List (String × List String)
  child_map : List (String × List String)
  generated_at : String
  deriving DecidableEq, Repr

/-- `Manifest.serialize`: derives the edges from the current node set via
`build_edges` and emits the structural contract with
`parent_map = backward_edges` and `child_map = forward_edges`. -/
def Manifest.serialize (m : Manifest) : Option SerializedManifest :=
  match build_edges (m.nodes.map Prod.snd) with
  | none => none
  | some (forward_edges, backward_edges) =>
    some { nodes := m.nodes
           macros := m.macros
           docs := m.docs
           parent_map := backward_edges
           child_map := forward_edges
           generated_at := m.generated_at }

/-- Python's `str.split('.')` on the underlying character list: splits at
every dot, keeping empty segments, so `""` gives `[""]` and `"a..b"` gives
`["a", "", "b"]`. -/
def splitOnDotAux : List Char → List Char → List String
  | [], acc => [String.mk acc.reverse]
  | c :: rest, acc =>
    if c = '.' then
      String.mk acc.reverse :: splitOnDotAux rest []
    else splitOnDotAux rest (c :: acc)

/-- `unique_id.split('.')` as `manifest.py` uses it. -/
def splitOnDot (s : String) : List String :=
  splitOnDotAux s.data []

/-- The loop of `Manifest.find_docs_by_name`: split each doc key on `'.'`;
a key that does not split into exactly two parts raises a compiler error
naming the offending doc; otherwise the first doc whose name matches, with
the package unset or matching, is returned. -/
def findDocsLoop (name : String) (package : Option String) :
    List (String × ParsedDocumentation) →
    Except CompilerError (Option ParsedDocumentation)
  | [] => .ok none
  | (unique_id, doc) :: rest =>
    let parts := splitOnDot unique_id
    if parts.length = 2 then
      let found_package := parts.getD 0 ""
      let found_node := parts.getD 1 ""
      if name = found_node ∧ (package = none ∨ package = some found_package) then
        .ok (some doc)
      else findDocsLoop name package rest
    else
      .error (.invalidDocumentationName
        "documentation names cannot contain . characters" doc)

/-- `Manifest.find_docs_by_name(name, package=None)`. -/
def Manifest.find_docs_by_name (m : Manifest) (name : String)
    (package : Option String := none) :
    Except CompilerError (Option ParsedDocumentation) :=
  findDocsLoop name package m.docs

/-- Modelled from the spec: `dbt.utils.find_in_subgraph_by_name`
(`dbt/utils.py` is not among the sources) — scans the chosen mapping in
insertion order and returns the first entry whose name matches, whose
resource type is in the allowed set, and whose package matches `package` or
`package` is unset; not-found is `none`, not an error. -/
def find_in_subgraph_by_name (search : List (String × ParsedMacro))
    (name : String) (package : Option String) (nodetype : List NodeType) :
    Option ParsedMacro :=
  match search with
  | [] => none
  | (_, entry) :: rest =>
    if entry.resource_type ∈ nodetype ∧ entry.name = name ∧
        (package = none ∨ package = some entry.package_name) then some entry
    else find_in_subgraph_by_name rest name package nodetype

/-- `Manifest.find_macro_by_name(name, package)`: `_find_by_name` on the
`macros` subgraph with node type `[NodeType.Macro]`. -/
def Manifest.find_macro_by_name (m : Manifest) (name : String)
    (package : Option String) : Option ParsedMacro :=
  find_in_subgraph_by_name m.macros name package [NodeType.Macro]

/-- Modelled from the spec: `dbt.utils.get_materialization_macro_name`
(`dbt/utils.py` is not among the sources) — the canonical macro name
combining materialization and adapter, an unset adapter standing for the
literal default marker (both call sites pass `with_prefix=False`). -/
def get_materialization_macro_name (materialization_name : String)
    (adapter_type : Option String) : String :=
  "materialization_" ++ materialization_name ++ "_" ++ adapter_type.getD "default"

/-- `Manifest.get_materialization_macro(materialization_name, adapter_type=None)`:
look up the canonical macro name with package unset; if that yields `None`
and `adapter_type not in ('default', None)`, retry once with the canonical
name for the default adapter and return whatever that yields. -/
def Manifest.get_materialization_macro (m : Manifest)
    (materialization_name : String) (adapter_type : Option String := none) :
    Option ParsedMacro :=
  let macro_name := get_materialization_macro_name materialization_name adapter_type
  let mac := m.find_macro_by_name macro_name none
  if (adapter_type ≠ some "default" ∧ adapter_type ≠ none) ∧ mac = none then
    m.find_macro_by_name
      (get_materialization_macro_name materialization_name (some "default")) none
  else mac

/-- The loop of `Manifest.add_nodes`: insert each new node in order.  At a
key already present in the (growing) node mapping the source calls
`raise_duplicate_resource_name(node, self.nodes[unique_id])` — but that
bare name is never imported, so Python raises `NameError` naming only the
missing global before the helper could run; the loop stops there, keeping
what was inserted before, and the error carries neither node. -/
def addNodesLoop : List (String × ParsedNode) → List (String × ParsedNode) →
    List (String × ParsedNode) × Option CompilerError
  | nodes, [] => (nodes, none)
  | nodes, (unique_id, node) :: rest =>
    match dictGet nodes unique_id with
    | some _ => (nodes, some (.nameError "raise_duplicate_resource_name"))
    | none => addNodesLoop (dictInsert nodes unique_id node) rest

/-- `Manifest.add_nodes(new_nodes)`: the manifest with the loop's resulting
node mapping, together with the error if one was raised. -/
def Manifest.add_nodes (m : Manifest) (new_nodes : List (String × ParsedNode)) :
    Manifest × Option CompilerError :=
  let r := addNodesLoop m.nodes new_nodes
  ({ m with nodes := r.1 }, r.2)

/-- The scan loop of `Manifest.patch_nodes`: for each node of resource type
`Model`, `patches.pop(node.name, None)`; when a patch is found it is applied
to the node; the patch dict is threaded through in scan order.  Returns the
scanned node mapping and the remaining patches. -/
def patchNodesLoop : List (String × ParsedNode) →
    List (String × ParsedNodePatch) →
    List (String × ParsedNode) × List (String × ParsedNodePatch)
  | [], patches => ([], patches)
  | (k, node) :: rest, patches =>
    if node.resource_type ≠ NodeType.Model then
      let r := patchNodesLoop rest patches
      ((k, node) :: r.1, r.2)
    else
      match dictPop patches node.name with
      | (none, patches2) =>
        let r := patchNodesLoop rest patches2
        ((k, node) :: r.1, r.2)
      | (some p, patches2) =>
        let r := patchNodesLoop rest patches2
        ((k, node.patch p) :: r.1, r.2)

/-- The debug warning logged for each patch left over after the scan. -/
def patchWarning (p : ParsedNodePatch) : String :=
  "WARNING: Found documentation for model " ++ p.name ++
    " which was not found or is disabled"

/-- `Manifest.patch_nodes(patches)`: scan the nodes consuming the patch
dict, then log one warning per remaining patch.  Returns the patched
manifest, the remaining (unmatched) patches and the warning list. -/
def Manifest.patch_nodes (m : Manifest)
    (patches : List (String × ParsedNodePatch)) :
    Manifest × List (String × ParsedNodePatch) × List String :=
  let r := patchNodesLoop m.nodes patches
  ({ m with nodes := r.1 }, r.2, r.2.map (fun q => patchWarning q.2))

/-! ### Concrete fixtures (used by witnesses and counterexamples) -/

def exNodeA : ParsedNode :=
  { unique_id := "A", name := "a", package_name := "root",
    resource_type := .Model, depends_on_nodes := [], description := "" }

def exNodeB : ParsedNode :=
  { unique_id := "B", name := "b", package_name := "root",
    resource_type := .Model, depends_on_nodes := ["A"], description := "" }

def exNodeC : ParsedNode :=
  { unique_id := "C", name := "c", package_name := "root",
    resource_type := .Model, depends_on_nodes := ["A", "B"], description := "" }

def exDocOverview : ParsedDocumentation :=
  { name := "overview", package_name := "pkg1", block_contents := "the overview" }

def exDocBad : ParsedDocumentation :=
  { name := "b.c", package_name := "a", block_contents := "malformed key" }

def exMacroTableDefault : ParsedMacro :=
  { unique_id := "macro.dbt.materialization_table_default",
    name := "materialization_table_default", package_name := "dbt",
    resource_type := .Macro }

def exPatchCustomers : ParsedNodePatch :=
  { name := "customers", description := "patched description" }

def exCustomers : ParsedNode :=
  { unique_id := "model.root.customers", name := "customers",
    package_name := "root", resource_type := .Model,
    depends_on_nodes := [], description := "" }

def exCustomersOther : ParsedNode :=
  { unique_id := "model.other.customers", name := "customers",
    package_name := "other", resource_type := .Model,
    depends_on_nodes := [], description := "" }

/-- The doc-matching criterion as the spec words it: the key splits into
(package, name) segments, the name matches, and the package is unset or
matches.  Used to state the claims about `find_docs_by_name`. -/
def docKeyMatches (name : String) (package : Option String) (key : String) : Bool :=
  decide (name = (splitOnDot key).getD 1 "" ∧
    (package = none ∨ package = some ((splitOnDot key).getD 0 "")))

/-- A manifest holding the single doc key `"pkg1.overview"`. -/
def exManifestDocs : Manifest :=
  { nodes := [], macros := [], docs := [("pkg1.overview", exDocOverview)],
    generated_at := "t" }

/-- A manifest holding a well-formed matching doc key followed by the
malformed doc key `"a.b.c"`. -/
def exManifestDocsBad : Manifest :=
  { nodes := [], macros := [],
    docs := [("pkg1.overview", exDocOverview), ("a.b.c", exDocBad)],
    generated_at := "t" }

/-- A manifest whose only macro is the default-adapter table
materialization. -/
def exManifestMacros : Manifest :=
  { nodes := [],
    macros := [("macro.dbt.materialization_table_default", exMacroTableDefault)],
    docs := [], generated_at := "t" }

/-- A manifest whose node mapping holds the single node key `"A"`. -/
def exManifestNodes : Manifest :=
  { nodes := [("A", exNodeA)], macros := [], docs := [], generated_at := "t" }

/-- The names of the Model-type nodes of a node mapping, in iteration
order; used to state the claims about `patch_nodes`. -/
def modelNames (nodes : List (String × ParsedNode)) : List String :=
  (nodes.filter (fun q => decide (q.2.resource_type = NodeType.Model))).map
    (fun q => q.2.name)

/-- A manifest with a single Model node named `"customers"`. -/
def exManifestPatch : Manifest :=
  { nodes := [("model.root.customers", exCustomers)], macros := [], docs := [],
    generated_at := "t" }

/-- A manifest with two Model nodes named `"customers"` in different
packages. -/
def exManifestPatchDup : Manifest :=
  { nodes := [("model.root.customers", exCustomers),
              ("model.other.customers", exCustomersOther)],
    macros := [], docs := [], generated_at := "t" }

/-! ### Dictionary lemmas -/

theorem dictGet_nil {α : Type} (k : String) : dictGet ([] : List (String × α)) k = none := rfl

theorem dictGet_cons {α : Type} (k' : String) (v : α) (rest : List (String × α)) (k : String) :
    dictGet ((k', v) :: rest) k = if k' = k then some v else dictGet rest k := rfl

theorem dictGet_append_left {α : Type} {a : List (String × α)} {k : String} {v : α}
    (b : List (String × α)) (h : dictGet a k = some v) :
    dictGet (a ++ b) k = some v := by
  induction a with
  | nil => simp [dictGet] at h
  | cons p rest ih =>
    obtain ⟨k', w⟩ := p
    by_cases hk : k' = k <;> simp_all [dictGet, hk]

theorem dictGet_append_right {α : Type} {a : List (String × α)} {k : String}
    (b : List (String × α)) (h : dictGet a k = none) :
    dictGet (a ++ b) k = dictGet b k := by
  induction a with
  | nil => simp
  | cons p rest ih =>
    obtain ⟨k', w⟩ := p
    by_cases hk : k' = k <;> simp_all [dictGet, hk]

theorem dictGet_eq_none_iff {α : Type} (m : List (String × α)) (k : String) :
    dictGet m k = none ↔ k ∉ m.map Prod.fst := by
  induction m with
  | nil => simp [dictGet]
  | cons p rest ih =>
    obtain ⟨k', w⟩ := p
    by_cases hk : k' = k
    · subst hk
      simp [dictGet]
    · simp [dictGet, hk, ih, Ne.symm hk]

theorem dictInsert_fresh {α : Type} {m : List (String × α)} {k : String}
    (v : α) (h : dictGet m k = none) :
    dictInsert m k v = m ++ [(k, v)] := by
  induction m with
  | nil => simp [dictInsert]
  | cons p rest ih =>
    obtain ⟨k', w⟩ := p
    by_cases hk : k' = k <;> simp_all [dictGet, dictInsert, hk]

theorem dictGet_insert_self {α : Type} (m : List (String × α)) (k : String) (v : α) :
    dictGet (dictInsert m k v) k = some v := by
  induction m with
  | nil => simp [dictInsert, dictGet]
  | cons p rest ih =>
    obtain ⟨k', w⟩ := p
    by_cases hk : k' = k <;> simp [dictInsert, dictGet, hk, ih]

theorem dictGet_insert_other {α : Type} (m : List (String × α)) {k k' : String}
    (v : α) (h : k' ≠ k) :
    dictGet (dictInsert m k v) k' = dictGet m k' := by
  induction m with
  | nil => simp [dictInsert, dictGet, Ne.symm h]
  | cons p rest ih =>
    obtain ⟨k'', w⟩ := p
    by_cases hk : k'' = k
    · subst hk
      simp [dictInsert, dictGet, Ne.symm h]
    · simp [dictInsert, dictGet, hk, ih]

theorem dictPop_fst {α : Type} (m : List (String × α)) (k : String) :
    (dictPop m k).1 = dictGet m k := by
  induction m with
  | nil => rfl
  | cons p rest ih =>
    obtain ⟨k', w⟩ := p
    by_cases hk : k' = k <;> simp [dictPop, dictGet, hk, ih]

theorem dictPop_of_none {α : Type} {m : List (String × α)} {k : String}
    (h : dictGet m k = none) : (dictPop m k).2 = m := by
  induction m with
  | nil => rfl
  | cons p rest ih =>
    obtain ⟨k', w⟩ := p
    by_cases hk : k' = k <;> simp_all [dictPop, dictGet, hk]

theorem dictPop_get_other {α : Type} (m : List (String × α)) {k k' : String}
    (h : k' ≠ k) : dictGet (dictPop m k).2 k' = dictGet m k' := by
  induction m with
  | nil => rfl
  | cons p rest ih =>
    obtain ⟨k'', w⟩ := p
    by_cases hk : k'' = k
    · subst hk
      simp [dictPop, dictGet, Ne.symm h]
    · simp [dictPop, dictGet, hk, ih]

theorem dictPop_sublist {α : Type} (m : List (String × α)) (k : String) :
    (dictPop m k).2.Sublist m := by
  induction m with
  | nil => simp [dictPop]
  | cons p rest ih =>
    obtain ⟨k', w⟩ := p
    by_cases hk : k' = k
    · simp only [dictPop, if_pos hk]
      exact List.sublist_cons_self _ _
    · simp only [dictPop, if_neg hk]
      exact List.Sublist.cons₂ _ ih

theorem dictPop_keys_subset {α : Type} (m : List (String × α)) (k k' : String)
    (h : k' ∈ (dictPop m k).2.map Prod.fst) : k' ∈ m.map Prod.fst :=
  (List.Sublist.map Prod.fst (dictPop_sublist m k)).mem h

theorem dictPop_not_mem {α : Type} {m : List (String × α)} {k : String} {v : α}
    (hnd : (m.map Prod.fst).Nodup) (h : dictGet m k = some v) :
    k ∉ (dictPop m k).2.map Prod.fst := by
  induction m with
  | nil => simp [dictGet] at h
  | cons p rest ih =>
    obtain ⟨k', w⟩ := p
    simp only [List.map_cons, List.nodup_cons] at hnd
    by_cases hk : k' = k
    · subst hk
      simp only [dictPop, if_pos rfl, List.map_cons] at *
      intro hmem
      obtain ⟨q, hq, hfst⟩ := List.mem_map.mp hmem
      exact hnd.1 (hfst ▸ List.mem_map_of_mem Prod.fst hq)
    · simp only [dictGet, if_neg hk] at h
      simp only [dictPop, if_neg hk, List.map_cons, List.mem_cons]
      rintro (rfl | hmem)
      · exact hk rfl
      · exact ih hnd.2 h hmem

theorem dictAppendAt_eq_none_iff (m : List (String × List String)) (k x : String) :
    dictAppendAt m k x = none ↔ dictGet m k = none := by
  induction m with
  | nil => simp [dictAppendAt, dictGet]
  | cons p rest ih =>
    obtain ⟨k', vs⟩ := p
    by_cases hk : k' = k <;> simp [dictAppendAt, dictGet, hk, ih]

theorem dictAppendAt_keys {m m' : List (String × List String)} {k x : String}
    (h : dictAppendAt m k x = some m') : m'.map Prod.fst = m.map Prod.fst := by
  induction m generalizing m' with
  | nil => simp [dictAppendAt] at h
  | cons p rest ih =>
    obtain ⟨k', vs⟩ := p
    by_cases hk : k' = k
    · simp only [dictAppendAt, if_pos hk] at h
      cases h
      simp
    · simp only [dictAppendAt, if_neg hk, Option.map_eq_some'] at h
      obtain ⟨r, hr, rfl⟩ := h
      simp [ih hr]

theorem dictAppendAt_get_self {m m' : List (String × List String)} {k x : String}
    (h : dictAppendAt m k x = some m') :
    dictGet m' k = (dictGet m k).map (fun vs => vs ++ [x]) := by
  induction m generalizing m' with
  | nil => simp [dictAppendAt] at h
  | cons p rest ih =>
    obtain ⟨k', vs⟩ := p
    by_cases hk : k' = k
    · simp only [dictAppendAt, if_pos hk] at h
      cases h
      simp [dictGet, hk]
    · simp only [dictAppendAt, if_neg hk, Option.map_eq_some'] at h
      obtain ⟨r, hr, rfl⟩ := h
      simp [dictGet, hk, ih hr]

theorem dictAppendAt_get_other {m m' : List (String × List String)} {k k' x : String}
    (h : dictAppendAt m k x = some m') (hne : k' ≠ k) :
    dictGet m' k' = dictGet m k' := by
  induction m generalizing m' with
  | nil => simp [dictAppendAt] at h
  | cons p rest ih =>
    obtain ⟨k'', vs⟩ := p
    by_cases hk : k'' = k
    · simp only [dictAppendAt, if_pos hk] at h
      cases h
      subst hk
      simp [dictGet, Ne.symm hne]
    · simp only [dictAppendAt, if_neg hk, Option.map_eq_some'] at h
      obtain ⟨r, hr, rfl⟩ := h
      simp [dictGet, ih hr]

theorem dictGet_isSome_iff {α : Type} (m : List (String × α)) (k : String) :
    (dictGet m k).isSome ↔ k ∈ m.map Prod.fst := by
  rcases h : dictGet m k with _ | v
  · rw [dictGet_eq_none_iff m k] at h
    simp [h]
  · have hne : dictGet m k ≠ none := by rw [h]; exact fun hc => Option.noConfusion hc
    rw [Ne, dictGet_eq_none_iff, not_not] at hne
    simp [hne]

theorem dictInsert_mem_keys {α : Type} (m : List (String × α)) (k k' : String) (v : α) :
    k' ∈ (dictInsert m k v).map Prod.fst ↔ k' ∈ m.map Prod.fst ∨ k' = k := by
  induction m with
  | nil => simp [dictInsert]
  | cons p rest ih =>
    obtain ⟨k'', w⟩ := p
    by_cases hk : k'' = k
    · subst hk
      simp [dictInsert]
      tauto
    · simp [dictInsert, hk, ih]
      tauto

theorem dictInsert_entries {α : Type} {m : List (String × α)} {k : String} {v : α}
    {q : String × α} (h : q ∈ dictInsert m k v) : q ∈ m ∨ q = (k, v) := by
  induction m with
  | nil => simp [dictInsert] at h; simp [h]
  | cons p rest ih =>
    obtain ⟨k'', w⟩ := p
    by_cases hk : k'' = k
    · simp only [dictInsert, if_pos hk] at h
      rcases List.mem_cons.mp h with rfl | hm
      · right; rfl
      · left; exact List.mem_cons_of_mem _ hm
    · simp only [dictInsert, if_neg hk] at h
      rcases List.mem_cons.mp h with rfl | hm
      · left; exact List.mem_cons_self _ _
      · rcases ih hm with h1 | h1
        · left; exact List.mem_cons_of_mem _ h1
        · right; exact h1

theorem dictGet_mem {α : Type} {m : List (String × α)} {k : String} {v : α}
    (h : dictGet m k = some v) : (k, v) ∈ m := by
  induction m with
  | nil => simp [dictGet] at h
  | cons p rest ih =>
    obtain ⟨k'', w⟩ := p
    by_cases hk : k'' = k
    · subst hk
      have hw : dictGet ((k'', w) :: rest) k'' = some w := by simp [dictGet]
      rw [hw] at h
      cases h
      exact List.mem_cons_self _ _
    · simp only [dictGet, if_neg hk] at h
      exact List.mem_cons_of_mem _ (ih h)

/-! ### Lemmas on `build_edges` -/

theorem appendForward_keys {fwd fwd' : List (String × List String)}
    {deps : List String} {uid : String}
    (h : appendForward fwd deps uid = some fwd') :
    fwd'.map Prod.fst = fwd.map Prod.fst := by
  induction deps generalizing fwd with
  | nil =>
    simp only [appendForward] at h
    cases h
    rfl
  | cons d rest ih =>
    simp only [appendForward] at h
    rcases ha : dictAppendAt fwd d uid with _ | fwd2
    · rw [ha] at h; exact Option.noConfusion h
    · rw [ha] at h
      rw [ih h, dictAppendAt_keys ha]

theorem appendForward_isSome {fwd : List (String × List String)}
    {deps : List String} (uid : String)
    (h : ∀ d ∈ deps, d ∈ fwd.map Prod.fst) :
    ∃ fwd', appendForward fwd deps uid = some fwd' := by
  induction deps generalizing fwd with
  | nil => exact ⟨fwd, rfl⟩
  | cons d rest ih =>
    have hd : d ∈ fwd.map Prod.fst := h d (List.mem_cons_self _ _)
    rcases ha : dictAppendAt fwd d uid with _ | fwd2
    · rw [dictAppendAt_eq_none_iff, dictGet_eq_none_iff] at ha
      exact absurd hd ha
    · have hrest : ∀ e ∈ rest, e ∈ fwd2.map Prod.fst := by
        intro e he
        rw [dictAppendAt_keys ha]
        exact h e (List.mem_cons_of_mem _ he)
      obtain ⟨fwd', hf⟩ := ih hrest
      exact ⟨fwd', by simp only [appendForward, ha, hf]⟩

theorem appendForward_mem {fwd fwd' : List (String × List String)}
    {deps : List String} {uid : String}
    (h : appendForward fwd deps uid = some fwd') (k : String) {vs' : List String}
    (hget : dictGet fwd' k = some vs') :
    ∃ vs, dictGet fwd k = some vs ∧
      ∀ b, b ∈ vs' ↔ b ∈ vs ∨ (b = uid ∧ k ∈ deps) := by
  induction deps generalizing fwd with
  | nil =>
    simp only [appendForward] at h
    cases h
    exact ⟨vs', hget, by simp⟩
  | cons d rest ih =>
    simp only [appendForward] at h
    rcases ha : dictAppendAt fwd d uid with _ | fwd2
    · rw [ha] at h; exact Option.noConfusion h
    · rw [ha] at h
      obtain ⟨vs2, hvs2, hiff2⟩ := ih h
      by_cases hk : k = d
      · subst hk
        have := dictAppendAt_get_self ha
        rw [hvs2] at this
        rcases hfwd : dictGet fwd k with _ | vs
        · rw [hfwd] at this; exact Option.noConfusion this
        · rw [hfwd] at this
          simp only [Option.map_some'] at this
          refine ⟨vs, rfl, fun b => ?_⟩
          have hveq : vs2 = vs ++ [uid] := by
            simpa using this
          rw [hiff2 b, hveq]
          simp only [List.mem_append, List.mem_singleton, List.mem_cons]
          tauto
      · have := dictAppendAt_get_other ha hk
        rw [hvs2] at this
        refine ⟨vs2, this.symm, fun b => ?_⟩
        rw [hiff2 b]
        simp [hk]

theorem buildEdgesLoop_keys {rest : List ParsedNode}
    {fwd bwd fwd' bwd' : List (String × List String)}
    (h : buildEdgesLoop rest fwd bwd = some (fwd', bwd')) :
    fwd'.map Prod.fst = fwd.map Prod.fst := by
  induction rest generalizing fwd bwd with
  | nil =>
    simp only [buildEdgesLoop] at h
    cases h
    rfl
  | cons n tail ih =>
    simp only [buildEdgesLoop] at h
    rcases ha : appendForward fwd n.depends_on_nodes n.unique_id with _ | fwd2
    · rw [ha] at h; exact Option.noConfusion h
    · rw [ha] at h
      rw [ih h, appendForward_keys ha]

theorem buildEdgesLoop_isSome (rest : List ParsedNode)
    (fwd bwd : List (String × List String))
    (h : ∀ n ∈ rest, ∀ d ∈ n.depends_on_nodes, d ∈ fwd.map Prod.fst) :
    ∃ r, buildEdgesLoop rest fwd bwd = some r := by
  induction rest generalizing fwd bwd with
  | nil => exact ⟨(fwd, bwd), rfl⟩
  | cons n tail ih =>
    obtain ⟨fwd2, ha⟩ :=
      appendForward_isSome n.unique_id (h n (List.mem_cons_self _ _))
    have htail : ∀ m ∈ tail, ∀ d ∈ m.depends_on_nodes, d ∈ fwd2.map Prod.fst := by
      intro m hm d hd
      rw [appendForward_keys ha]
      exact h m (List.mem_cons_of_mem _ hm) d hd
    obtain ⟨r, hr⟩ := ih fwd2 (dictInsert bwd n.unique_id n.depends_on_nodes) htail
    exact ⟨r, by simp only [buildEdgesLoop, ha, hr]⟩

theorem buildEdgesLoop_bwd_frame {rest : List ParsedNode}
    {fwd bwd fwd' bwd' : List (String × List String)}
    (h : buildEdgesLoop rest fwd bwd = some (fwd', bwd')) (k : String)
    (hk : k ∉ rest.map ParsedNode.unique_id) :
    dictGet bwd' k = dictGet bwd k := by
  induction rest generalizing fwd bwd with
  | nil =>
    simp only [buildEdgesLoop] at h
    cases h
    rfl
  | cons n tail ih =>
    simp only [List.map_cons, List.mem_cons, not_or] at hk
    simp only [buildEdgesLoop] at h
    rcases ha : appendForward fwd n.depends_on_nodes n.unique_id with _ | fwd2
    · rw [ha] at h; exact Option.noConfusion h
    · rw [ha] at h
      rw [ih h hk.2]
      exact dictGet_insert_other _ _ hk.1

theorem buildEdgesLoop_bwd_get {rest : List ParsedNode}
    {fwd bwd fwd' bwd' : List (String × List String)}
    (hnd : (rest.map ParsedNode.unique_id).Nodup)
    (h : buildEdgesLoop rest fwd bwd = some (fwd', bwd')) :
    ∀ n ∈ rest, dictGet bwd' n.unique_id = some n.depends_on_nodes := by
  induction rest generalizing fwd bwd with
  | nil => intro n hn; simp at hn
  | cons m tail ih =>
    simp only [List.map_cons, List.nodup_cons] at hnd
    intro n hn
    simp only [buildEdgesLoop] at h
    rcases ha : appendForward fwd m.depends_on_nodes m.unique_id with _ | fwd2
    · rw [ha] at h; exact Option.noConfusion h
    · rw [ha] at h
      rcases List.mem_cons.mp hn with rfl | htail
      · rw [buildEdgesLoop_bwd_frame h n.unique_id hnd.1]
        exact dictGet_insert_self _ _ _
      · exact ih hnd.2 h n htail

theorem buildEdgesLoop_fwd_mem {rest : List ParsedNode}
    {fwd bwd fwd' bwd' : List (String × List String)}
    (h : buildEdgesLoop rest fwd bwd = some (fwd', bwd')) (k : String)
    {vs' : List String} (hget : dictGet fwd' k = some vs') :
    ∃ vs, dictGet fwd k = some vs ∧
      ∀ b, b ∈ vs' ↔ b ∈ vs ∨
        ∃ n ∈ rest, n.unique_id = b ∧ k ∈ n.depends_on_nodes := by
  induction rest generalizing fwd bwd with
  | nil =>
    simp only [buildEdgesLoop] at h
    cases h
    exact ⟨vs', hget, by simp⟩
  | cons n tail ih =>
    simp only [buildEdgesLoop] at h
    rcases ha : appendForward fwd n.depends_on_nodes n.unique_id with _ | fwd2
    · rw [ha] at h; exact Option.noConfusion h
    · rw [ha] at h
      obtain ⟨vs2, hvs2, hiff2⟩ := ih h
      obtain ⟨vs, hvs, hiff⟩ := appendForward_mem ha k hvs2
      refine ⟨vs, hvs, fun b => ?_⟩
      rw [hiff2 b, hiff b]
      constructor
      · rintro ((hb | ⟨rfl, hk⟩) | ⟨m, hm, rfl, hk⟩)
        · exact Or.inl hb
        · exact Or.inr ⟨n, List.mem_cons_self _ _, rfl, hk⟩
        · exact Or.inr ⟨m, List.mem_cons_of_mem _ hm, rfl, hk⟩
      · rintro (hb | ⟨m, hm, rfl, hk⟩)
        · exact Or.inl (Or.inl hb)
        · rcases List.mem_cons.mp hm with rfl | hm2
          · exact Or.inl (Or.inr ⟨rfl, hk⟩)
          · exact Or.inr ⟨m, hm2, rfl, hk⟩

theorem initForward_mem (nodes : List ParsedNode) (k : String) :
    k ∈ (initForward nodes).map Prod.fst ↔ k ∈ nodes.map ParsedNode.unique_id := by
  have hgen : ∀ (l : List ParsedNode) (acc : List (String × List String)),
      k ∈ ((l.foldl (fun a n => dictInsert a n.unique_id []) acc).map Prod.fst) ↔
        k ∈ acc.map Prod.fst ∨ k ∈ l.map ParsedNode.unique_id := by
    intro l
    induction l with
    | nil => intro acc; simp
    | cons n tail ih =>
      intro acc
      simp only [List.foldl_cons, ih, dictInsert_mem_keys, List.map_cons, List.mem_cons]
      tauto
  rw [initForward, hgen]
  simp

theorem initForward_get_eq_nil {nodes : List ParsedNode} {k : String}
    {vs : List String} (h : dictGet (initForward nodes) k = some vs) : vs = [] := by
  have hgen : ∀ (l : List ParsedNode) (acc : List (String × List String)),
      (∀ q ∈ acc, q.2 = ([] : List String)) →
      ∀ q ∈ l.foldl (fun a n => dictInsert a n.unique_id []) acc, q.2 = ([] : List String) := by
    intro l
    induction l with
    | nil => intro acc hacc; exact hacc
    | cons n tail ih =>
      intro acc hacc
      refine ih _ (fun q hq => ?_)
      rcases dictInsert_entries hq with h1 | h1
      · exact hacc q h1
      · rw [h1]
  have := hgen nodes [] (by simp) (k, vs) (dictGet_mem h)
  exact this

/-- Claim helper: `build_edges` under unique keys and referential
completeness succeeds, and entry-wise characterization of both maps. -/
theorem build_edges_char (nodes : List ParsedNode)
    (huniq : (nodes.map ParsedNode.unique_id).Nodup)
    (href : ∀ n ∈ nodes, ∀ d ∈ n.depends_on_nodes,
      d ∈ nodes.map ParsedNode.unique_id) :
    ∃ fwd bwd, build_edges nodes = some (fwd, bwd) ∧
      (∀ n ∈ nodes, dictGet bwd n.unique_id = some n.depends_on_nodes) ∧
      (∀ n ∈ nodes, ∃ vs, dictGet fwd n.unique_id = some vs ∧
        ∀ b, b ∈ vs ↔ ∃ m ∈ nodes, m.unique_id = b ∧ n.unique_id ∈ m.depends_on_nodes) := by
  have hinit : ∀ n ∈ nodes, ∀ d ∈ n.depends_on_nodes,
      d ∈ (initForward nodes).map Prod.fst := by
    intro n hn d hd
    rw [initForward_mem]
    exact href n hn d hd
  obtain ⟨⟨fwd, bwd⟩, hbuild⟩ := buildEdgesLoop_isSome nodes (initForward nodes) [] hinit
  refine ⟨fwd, bwd, hbuild, buildEdgesLoop_bwd_get huniq hbuild, ?_⟩
  intro n hn
  have hkeys := buildEdgesLoop_keys hbuild
  have hmem : n.unique_id ∈ fwd.map Prod.fst := by
    rw [hkeys, initForward_mem]
    exact List.mem_map_of_mem ParsedNode.unique_id hn
  rcases hget : dictGet fwd n.unique_id with _ | vs
  · rw [dictGet_eq_none_iff] at hget
    exact absurd hmem hget
  · obtain ⟨vs0, hvs0, hiff⟩ := buildEdgesLoop_fwd_mem hbuild n.unique_id hget
    have hnil : vs0 = [] := initForward_get_eq_nil hvs0
    refine ⟨vs, rfl, fun b => ?_⟩
    rw [hiff b, hnil]
    simp

/-! ### Claim theorems -/

/-- C1: for every collection of nodes with unique keys whose dependency keys
all refer to nodes in the collection, `build_edges` succeeds and returns a
forward map containing an entry (possibly the empty list) for every node's
unique key, and a backward map whose entry at node k's key equals, by value,
node k's `depends_on_nodes` list. -/
theorem claim_c1_build_edges_entries (nodes : List ParsedNode)
    (huniq : (nodes.map ParsedNode.unique_id).Nodup)
    (href : ∀ n ∈ nodes, ∀ d ∈ n.depends_on_nodes,
      d ∈ nodes.map ParsedNode.unique_id) :
    ∃ fwd bwd, build_edges nodes = some (fwd, bwd) ∧
      (∀ n ∈ nodes, ∃ vs, dictGet fwd n.unique_id = some vs) ∧
      (∀ n ∈ nodes, dictGet bwd n.unique_id = some n.depends_on_nodes) := by
  obtain ⟨fwd, bwd, hbuild, hbwd, hfwd⟩ := build_edges_char nodes huniq href
  exact ⟨fwd, bwd, hbuild,
    fun n hn => ⟨(hfwd n hn).choose, (hfwd n hn).choose_spec.1⟩, hbwd⟩

/-- Witness for C1 at the example node set A, B(deps=[A]), C(deps=[A,B]);
the exact maps are also computed. -/
theorem claim_c1_witness :
    (([exNodeA, exNodeB, exNodeC].map ParsedNode.unique_id).Nodup ∧
      ∀ n ∈ [exNodeA, exNodeB, exNodeC], ∀ d ∈ n.depends_on_nodes,
        d ∈ [exNodeA, exNodeB, exNodeC].map ParsedNode.unique_id) ∧
    (∃ fwd bwd, build_edges [exNodeA, exNodeB, exNodeC] = some (fwd, bwd) ∧
      (∀ n ∈ [exNodeA, exNodeB, exNodeC], ∃ vs, dictGet fwd n.unique_id = some vs) ∧
      (∀ n ∈ [exNodeA, exNodeB, exNodeC],
        dictGet bwd n.unique_id = some n.depends_on_nodes)) :=
  ⟨⟨by decide, by decide⟩,
    claim_c1_build_edges_entries [exNodeA, exNodeB, exNodeC] (by decide) (by decide)⟩

/-- C2: edge mirror property — for every referentially complete node
collection with unique keys and all nodes A, B in it, B's `depends_on` list
contains A's key if and only if B's key appears in `forward[A]` and A's key
appears in `backward[B]`. -/
theorem claim_c2_edge_mirror (nodes : List ParsedNode)
    (huniq : (nodes.map ParsedNode.unique_id).Nodup)
    (href : ∀ n ∈ nodes, ∀ d ∈ n.depends_on_nodes,
      d ∈ nodes.map ParsedNode.unique_id)
    (A B : ParsedNode) (hA : A ∈ nodes) (hB : B ∈ nodes) :
    ∃ fwd bwd, build_edges nodes = some (fwd, bwd) ∧
      (A.unique_id ∈ B.depends_on_nodes ↔
        ((∃ vs, dictGet fwd A.unique_id = some vs ∧ B.unique_id ∈ vs) ∧
         (∃ vs, dictGet bwd B.unique_id = some vs ∧ A.unique_id ∈ vs))) := by
  obtain ⟨fwd, bwd, hbuild, hbwd, hfwd⟩ := build_edges_char nodes huniq href
  obtain ⟨vsA, hvsA, hiffA⟩ := hfwd A hA
  refine ⟨fwd, bwd, hbuild, ?_, ?_⟩
  · intro hdep
    constructor
    · exact ⟨vsA, hvsA, (hiffA B.unique_id).mpr ⟨B, hB, rfl, hdep⟩⟩
    · exact ⟨B.depends_on_nodes, hbwd B hB, hdep⟩
  · rintro ⟨-, ⟨vs, hvs, hmem⟩⟩
    rw [hbwd B hB] at hvs
    cases hvs
    exact hmem

/-- Witness for C2 at the example node set: B depends on A, and both mirror
memberships hold in the computed maps. -/
theorem claim_c2_witness :
    (([exNodeA, exNodeB, exNodeC].map ParsedNode.unique_id).Nodup ∧
      (∀ n ∈ [exNodeA, exNodeB, exNodeC], ∀ d ∈ n.depends_on_nodes,
        d ∈ [exNodeA, exNodeB, exNodeC].map ParsedNode.unique_id) ∧
      exNodeA ∈ [exNodeA, exNodeB, exNodeC] ∧
      exNodeB ∈ [exNodeA, exNodeB, exNodeC]) ∧
    (∃ fwd bwd, build_edges [exNodeA, exNodeB, exNodeC] = some (fwd, bwd) ∧
      (exNodeA.unique_id ∈ exNodeB.depends_on_nodes ↔
        ((∃ vs, dictGet fwd exNodeA.unique_id = some vs ∧ exNodeB.unique_id ∈ vs) ∧
         (∃ vs, dictGet bwd exNodeB.unique_id = some vs ∧ exNodeA.unique_id ∈ vs)))) :=
  ⟨⟨by decide, by decide, by decide, by decide⟩,
    claim_c2_edge_mirror [exNodeA, exNodeB, exNodeC] (by decide) (by decide)
      exNodeA exNodeB (by decide) (by decide)⟩

/-- C3: `serialize` derives `parent_map` and `child_map` from the current
node mapping and from nothing else — two manifests with equal node mappings
(in particular repeated calls on an unchanged manifest) yield identical
`parent_map` and `child_map`. -/
theorem claim_c3_serialize_recomputed (m1 m2 : Manifest)
    (h : m1.nodes = m2.nodes) :
    (m1.serialize).map (fun s => (s.parent_map, s.child_map)) =
      (m2.serialize).map (fun s => (s.parent_map, s.child_map)) := by
  cases hb : build_edges (m2.nodes.map Prod.snd) with
  | none => simp [Manifest.serialize, h, hb]
  | some r =>
    obtain ⟨fwd, bwd⟩ := r
    simp [Manifest.serialize, h, hb]

/-- Witness for C3: two manifests sharing the node mapping but differing in
macros, docs and timestamp serialize to the same edge maps. -/
theorem claim_c3_witness :
    (({ nodes := [("A", exNodeA), ("B", exNodeB)], macros := [],
        docs := [], generated_at := "t1" } : Manifest).nodes =
      ({ nodes := [("A", exNodeA), ("B", exNodeB)],
         macros := [("m", exMacroTableDefault)],
         docs := [("pkg1.overview", exDocOverview)],
         generated_at := "t2" } : Manifest).nodes) ∧
    (({ nodes := [("A", exNodeA), ("B", exNodeB)], macros := [],
        docs := [], generated_at := "t1" } : Manifest).serialize).map
        (fun s => (s.parent_map, s.child_map)) =
      (({ nodes := [("A", exNodeA), ("B", exNodeB)],
          macros := [("m", exMacroTableDefault)],
          docs := [("pkg1.overview", exDocOverview)],
          generated_at := "t2" } : Manifest).serialize).map
        (fun s => (s.parent_map, s.child_map)) :=
  ⟨rfl, claim_c3_serialize_recomputed _ _ rfl⟩

/-! ### Lemmas on `find_docs_by_name` -/

theorem findDocsLoop_cons_wellformed (name : String) (package : Option String)
    (uid : String) (doc : ParsedDocumentation)
    (rest : List (String × ParsedDocumentation))
    (hlen : (splitOnDot uid).length = 2) :
    findDocsLoop name package ((uid, doc) :: rest) =
      if docKeyMatches name package uid then .ok (some doc)
      else findDocsLoop name package rest := by
  simp only [findDocsLoop, if_pos hlen, docKeyMatches]
  by_cases hm : name = (splitOnDot uid).getD 1 "" ∧
      (package = none ∨ package = some ((splitOnDot uid).getD 0 ""))
  · rw [if_pos hm, if_pos (decide_eq_true hm)]
  · rw [if_neg hm, if_neg ?hdm]
    case hdm =>
      rw [decide_eq_true_eq]
      exact hm

theorem findDocsLoop_cons_malformed (name : String) (package : Option String)
    (uid : String) (doc : ParsedDocumentation)
    (rest : List (String × ParsedDocumentation))
    (hlen : (splitOnDot uid).length ≠ 2) :
    findDocsLoop name package ((uid, doc) :: rest) =
      .error (.invalidDocumentationName
        "documentation names cannot contain . characters" doc) := by
  simp only [findDocsLoop, if_neg hlen]

theorem findDocsLoop_skip (name : String) (package : Option String)
    {pre : List (String × ParsedDocumentation)}
    (rest : List (String × ParsedDocumentation))
    (hpre : ∀ p ∈ pre, (splitOnDot p.1).length = 2 ∧
      docKeyMatches name package p.1 = false) :
    findDocsLoop name package (pre ++ rest) = findDocsLoop name package rest := by
  induction pre with
  | nil => rfl
  | cons q pre ih =>
    obtain ⟨uid, doc⟩ := q
    obtain ⟨hlen, hmatch⟩ := hpre (uid, doc) (List.mem_cons_self _ _)
    rw [List.cons_append, findDocsLoop_cons_wellformed name package uid doc _ hlen,
      if_neg (by rw [hmatch]; exact Bool.false_ne_true),
      ih (fun p hp => hpre p (List.mem_cons_of_mem _ hp))]

theorem findDocsLoop_wellformed (name : String) (package : Option String)
    (docs : List (String × ParsedDocumentation))
    (h : ∀ p ∈ docs, (splitOnDot p.1).length = 2) :
    findDocsLoop name package docs =
      .ok ((docs.find? (fun p => docKeyMatches name package p.1)).map Prod.snd) := by
  induction docs with
  | nil => rfl
  | cons q rest ih =>
    obtain ⟨uid, doc⟩ := q
    rw [findDocsLoop_cons_wellformed name package uid doc rest
      (h (uid, doc) (List.mem_cons_self _ _))]
    by_cases hm : docKeyMatches name package uid = true
    · rw [if_pos hm]
      have hf : List.find? (fun p : String × ParsedDocumentation =>
          docKeyMatches name package p.1) ((uid, doc) :: rest) = some (uid, doc) :=
        List.find?_cons_of_pos _ hm
      rw [hf]
      rfl
    · rw [if_neg hm]
      have hf : List.find? (fun p : String × ParsedDocumentation =>
          docKeyMatches name package p.1) ((uid, doc) :: rest) =
          List.find? (fun p => docKeyMatches name package p.1) rest :=
        List.find?_cons_of_neg _ hm
      rw [hf, ih (fun p hp => h p (List.mem_cons_of_mem _ hp))]

/-- C4: for every manifest whose doc keys all split into exactly two
segments, `find_docs_by_name` returns (as a non-error) the first doc, in the
doc mapping's insertion order, whose key splits into (package, name) with
matching name and unset-or-matching package, and not-found (`none`) when no
doc matches. -/
theorem claim_c4_find_docs_first_match (m : Manifest) (name : String)
    (package : Option String)
    (h : ∀ p ∈ m.docs, (splitOnDot p.1).length = 2) :
    m.find_docs_by_name name package =
      .ok ((m.docs.find? (fun p => docKeyMatches name package p.1)).map Prod.snd) :=
  findDocsLoop_wellformed name package m.docs h

/-- Witness for C4 on the doc key `"pkg1.overview"`: lookup with package
`"pkg1"` finds it, with `"pkg2"` does not, and with the package unset finds
it. -/
theorem claim_c4_witness :
    ((∀ p ∈ exManifestDocs.docs, (splitOnDot p.1).length = 2) ∧
      exManifestDocs.find_docs_by_name "overview" (some "pkg1") =
        .ok ((exManifestDocs.docs.find?
          (fun p => docKeyMatches "overview" (some "pkg1") p.1)).map Prod.snd)) ∧
    exManifestDocs.find_docs_by_name "overview" (some "pkg1") = .ok (some exDocOverview) ∧
    exManifestDocs.find_docs_by_name "overview" (some "pkg2") = .ok none ∧
    exManifestDocs.find_docs_by_name "overview" none = .ok (some exDocOverview) :=
  ⟨⟨by decide, claim_c4_find_docs_first_match exManifestDocs "overview"
      (some "pkg1") (by decide)⟩, rfl, rfl, rfl⟩

/-- C5 counterexample: the manifest `exManifestDocsBad` contains the
malformed doc key `"a.b.c"`, yet `find_docs_by_name "overview"` returns a
successful match rather than an InvalidDocumentationName error, because a
matching doc precedes the malformed one. -/
theorem claim_c5_counterexample :
    (∃ p ∈ exManifestDocsBad.docs, (splitOnDot p.1).length ≠ 2) ∧
    exManifestDocsBad.find_docs_by_name "overview" none = .ok (some exDocOverview) :=
  ⟨⟨("a.b.c", exDocBad), by decide, by decide⟩, rfl⟩

/-- C5 (amended): for every manifest containing a doc whose key does not
split into exactly two segments, doc lookup via `find_docs_by_name` fails
with an InvalidDocumentationName error naming the offending doc, provided
every doc scanned before it is well-formed and does not match the lookup;
the malformed key is not detected when a match precedes it. -/
theorem claim_c5_malformed_error (m : Manifest) (name : String)
    (package : Option String) (pre post : List (String × ParsedDocumentation))
    (k : String) (d : ParsedDocumentation)
    (hdocs : m.docs = pre ++ (k, d) :: post)
    (hk : (splitOnDot k).length ≠ 2)
    (hpre : ∀ p ∈ pre, (splitOnDot p.1).length = 2 ∧
      docKeyMatches name package p.1 = false) :
    m.find_docs_by_name name package =
      .error (.invalidDocumentationName
        "documentation names cannot contain . characters" d) := by
  rw [Manifest.find_docs_by_name, hdocs, findDocsLoop_skip name package _ hpre,
    findDocsLoop_cons_malformed name package k d post hk]

/-- Witness for C5 (amended): looking up a name that no earlier doc matches
reaches the malformed key `"a.b.c"` and errors, naming that doc. -/
theorem claim_c5_witness :
    ((splitOnDot "a.b.c").length ≠ 2 ∧
      (∀ p ∈ ([("pkg1.overview", exDocOverview)] :
          List (String × ParsedDocumentation)),
        (splitOnDot p.1).length = 2 ∧
          docKeyMatches "missing" none p.1 = false)) ∧
    exManifestDocsBad.find_docs_by_name "missing" none =
      .error (.invalidDocumentationName
        "documentation names cannot contain . characters" exDocBad) :=
  ⟨⟨by decide, by decide⟩,
    claim_c5_malformed_error exManifestDocsBad "missing" none
      [("pkg1.overview", exDocOverview)] [] "a.b.c" exDocBad rfl
      (by decide) (by decide)⟩

/-- C9: `find_docs_by_name` validates doc-key segment counts lazily — when a
well-formed matching doc precedes everything else that could fail, the call
returns that doc and raises no InvalidDocumentationName error, whatever
(including malformed keys) follows it in the doc mapping's iteration
order. -/
theorem claim_c9_lazy_validation (m : Manifest) (name : String)
    (package : Option String) (pre post : List (String × ParsedDocumentation))
    (k : String) (d : ParsedDocumentation)
    (hdocs : m.docs = pre ++ (k, d) :: post)
    (hpre : ∀ p ∈ pre, (splitOnDot p.1).length = 2 ∧
      docKeyMatches name package p.1 = false)
    (hk2 : (splitOnDot k).length = 2)
    (hkm : docKeyMatches name package k = true) :
    m.find_docs_by_name name package = .ok (some d) := by
  rw [Manifest.find_docs_by_name, hdocs, findDocsLoop_skip name package _ hpre,
    findDocsLoop_cons_wellformed name package k d post hk2, if_pos hkm]

/-- Witness for C9: with docs `"pkg1.overview"` then the malformed
`"a.b.c"`, looking up `"overview"` returns the match and no error is raised
for the malformed key that follows it. -/
theorem claim_c9_witness :
    ((∀ p ∈ ([] : List (String × ParsedDocumentation)),
        (splitOnDot p.1).length = 2 ∧ docKeyMatches "overview" none p.1 = false) ∧
      (splitOnDot "pkg1.overview").length = 2 ∧
      docKeyMatches "overview" none "pkg1.overview" = true ∧
      (∃ p ∈ exManifestDocsBad.docs, (splitOnDot p.1).length ≠ 2)) ∧
    exManifestDocsBad.find_docs_by_name "overview" none = .ok (some exDocOverview) :=
  ⟨⟨by decide, by decide, by decide, ⟨("a.b.c", exDocBad), by decide, by decide⟩⟩,
    claim_c9_lazy_validation exManifestDocsBad "overview" none []
      [("a.b.c", exDocBad)] "pkg1.overview" exDocOverview rfl (by decide)
      (by decide) (by decide)⟩

/-- C6: `get_materialization_macro` first looks up the canonical macro name
for (materialization, adapter) with package unset; when the adapter is unset
or the literal default marker the result is exactly that single lookup (no
fallback); when the first lookup succeeds its result is returned; and only
when the first lookup yields not-found with the adapter neither unset nor
the default marker is one retry performed with the default-adapter canonical
name, whose result (possibly not-found) is returned. -/
theorem claim_c6_materialization_fallback (m : Manifest)
    (materialization_name : String) (adapter_type : Option String) :
    ((adapter_type = none ∨ adapter_type = some "default") →
      m.get_materialization_macro materialization_name adapter_type =
        m.find_macro_by_name
          (get_materialization_macro_name materialization_name adapter_type) none) ∧
    (∀ mac, m.find_macro_by_name
        (get_materialization_macro_name materialization_name adapter_type) none =
          some mac →
      m.get_materialization_macro materialization_name adapter_type = some mac) ∧
    (adapter_type ≠ none → adapter_type ≠ some "default" →
      m.find_macro_by_name
        (get_materialization_macro_name materialization_name adapter_type) none =
          none →
      m.get_materialization_macro materialization_name adapter_type =
        m.find_macro_by_name
          (get_materialization_macro_name materialization_name (some "default"))
          none) := by
  refine ⟨?_, ?_, ?_⟩
  · rintro (rfl | rfl) <;> simp [Manifest.get_materialization_macro]
  · intro mac hmac
    simp [Manifest.get_materialization_macro, hmac]
  · intro h1 h2 h3
    simp [Manifest.get_materialization_macro, h1, h2, h3]

/-- Witness for C6: with only the default-adapter table materialization
present, resolution for adapter `"snowflake"` falls back and returns the
default-adapter macro. -/
theorem claim_c6_witness :
    ((some "snowflake" : Option String) ≠ none ∧
      (some "snowflake" : Option String) ≠ some "default" ∧
      exManifestMacros.find_macro_by_name
        (get_materialization_macro_name "table" (some "snowflake")) none = none) ∧
    exManifestMacros.get_materialization_macro "table" (some "snowflake") =
      exManifestMacros.find_macro_by_name
        (get_materialization_macro_name "table" (some "default")) none ∧
    exManifestMacros.get_materialization_macro "table" (some "snowflake") =
      some exMacroTableDefault :=
  ⟨⟨by decide, by decide, rfl⟩,
    (claim_c6_materialization_fallback exManifestMacros "table"
      (some "snowflake")).2.2 (by decide) (by decide) rfl, rfl⟩

/-! ### Lemmas on `add_nodes` -/

theorem addNodesLoop_fresh (nodes new : List (String × ParsedNode))
    (hfresh : ∀ p ∈ new, dictGet nodes p.1 = none)
    (hnd : (new.map Prod.fst).Nodup) :
    addNodesLoop nodes new = (nodes ++ new, none) := by
  induction new generalizing nodes with
  | nil => simp [addNodesLoop]
  | cons q rest ih =>
    obtain ⟨k, n⟩ := q
    simp only [List.map_cons, List.nodup_cons] at hnd
    have hk : dictGet nodes k = none := hfresh (k, n) (List.mem_cons_self _ _)
    have hins : dictInsert nodes k n = nodes ++ [(k, n)] := dictInsert_fresh n hk
    have hrest : ∀ p ∈ rest, dictGet (nodes ++ [(k, n)]) p.1 = none := by
      intro p hp
      rw [dictGet_append_right _ (hfresh p (List.mem_cons_of_mem _ hp))]
      have hne : k ≠ p.1 := by
        intro he
        exact hnd.1 (he ▸ List.mem_map_of_mem Prod.fst hp)
      simp [dictGet, hne]
    simp only [addNodesLoop, hk, hins, ih _ hrest hnd.2, List.append_assoc,
      List.singleton_append]

theorem addNodesLoop_collision (nodes pre post : List (String × ParsedNode))
    (k : String) (n existing : ParsedNode)
    (hpre_fresh : ∀ p ∈ pre, dictGet nodes p.1 = none)
    (hpre_nd : (pre.map Prod.fst).Nodup)
    (hcol : dictGet nodes k = some existing) :
    addNodesLoop nodes (pre ++ (k, n) :: post) =
      (nodes ++ pre, some (.nameError "raise_duplicate_resource_name")) := by
  induction pre generalizing nodes with
  | nil => simp [addNodesLoop, hcol]
  | cons q rest ih =>
    obtain ⟨k0, n0⟩ := q
    simp only [List.map_cons, List.nodup_cons] at hpre_nd
    have hk0 : dictGet nodes k0 = none := hpre_fresh (k0, n0) (List.mem_cons_self _ _)
    have hins : dictInsert nodes k0 n0 = nodes ++ [(k0, n0)] := dictInsert_fresh n0 hk0
    have hrest : ∀ p ∈ rest, dictGet (nodes ++ [(k0, n0)]) p.1 = none := by
      intro p hp
      rw [dictGet_append_right _ (hpre_fresh p (List.mem_cons_of_mem _ hp))]
      have hne : k0 ≠ p.1 := by
        intro he
        exact hpre_nd.1 (he ▸ List.mem_map_of_mem Prod.fst hp)
      simp [dictGet, hne]
    have hcol2 : dictGet (nodes ++ [(k0, n0)]) k = some existing :=
      dictGet_append_left _ hcol
    rw [List.cons_append,
      show addNodesLoop nodes ((k0, n0) :: (rest ++ (k, n) :: post)) =
          addNodesLoop (dictInsert nodes k0 n0) (rest ++ (k, n) :: post) from by
        simp only [addNodesLoop, hk0],
      hins, ih _ hrest hpre_nd.2 hcol2]
    simp

/-- C7 (code bug): at the failing input — a manifest holding key `"A"`,
adding `[("B", b), ("A", c)]` — `add_nodes` does stop at the first
collision, keeping the node inserted earlier in the same call, but the
error raised is Python's `NameError` for the never-imported bare name
`raise_duplicate_resource_name`, carrying neither the existing nor the
incoming node's identity; the claim (and the spec's error taxonomy) call
for a DuplicateResourceName naming both.  The non-colliding call
`[("B", b), ("C", c)]` inserts every node with no error, as the claim
says. -/
theorem claim_c7_add_nodes_name_error :
    exManifestNodes.add_nodes [("B", exNodeB), ("A", exNodeC)] =
      ({ exManifestNodes with nodes := exManifestNodes.nodes ++ [("B", exNodeB)] },
        some (.nameError "raise_duplicate_resource_name")) ∧
    exManifestNodes.add_nodes [("B", exNodeB), ("C", exNodeC)] =
      ({ exManifestNodes with
          nodes := exManifestNodes.nodes ++ [("B", exNodeB), ("C", exNodeC)] },
        none) :=
  ⟨rfl, rfl⟩

/-! ### Lemmas on `patch_nodes` -/

theorem modelNames_cons_model {node : ParsedNode} (k : String)
    (rest : List (String × ParsedNode))
    (ht : node.resource_type = NodeType.Model) :
    modelNames ((k, node) :: rest) = node.name :: modelNames rest := by
  simp [modelNames, List.filter_cons, ht]

theorem modelNames_cons_other {node : ParsedNode} (k : String)
    (rest : List (String × ParsedNode))
    (ht : node.resource_type ≠ NodeType.Model) :
    modelNames ((k, node) :: rest) = modelNames rest := by
  simp [modelNames, List.filter_cons, ht]

theorem patchNodesLoop_cons_other {node : ParsedNode} (k : String)
    (rest : List (String × ParsedNode))
    (patches : List (String × ParsedNodePatch))
    (ht : node.resource_type ≠ NodeType.Model) :
    patchNodesLoop ((k, node) :: rest) patches =
      ((k, node) :: (patchNodesLoop rest patches).1,
        (patchNodesLoop rest patches).2) := by
  simp only [patchNodesLoop, if_pos ht]

theorem patchNodesLoop_cons_miss {node : ParsedNode} (k : String)
    (rest : List (String × ParsedNode))
    (patches : List (String × ParsedNodePatch))
    (ht : node.resource_type = NodeType.Model)
    (hget : dictGet patches node.name = none) :
    patchNodesLoop ((k, node) :: rest) patches =
      ((k, node) :: (patchNodesLoop rest patches).1,
        (patchNodesLoop rest patches).2) := by
  have hpop : dictPop patches node.name = (none, patches) := by
    have h1 := dictPop_fst patches node.name
    have h2 := dictPop_of_none hget
    rw [hget] at h1
    exact Prod.ext h1 h2
  simp only [patchNodesLoop, if_neg (not_not_intro ht), hpop]

theorem patchNodesLoop_cons_hit {node : ParsedNode} (k : String)
    (rest : List (String × ParsedNode))
    (patches : List (String × ParsedNodePatch)) {p : ParsedNodePatch}
    (ht : node.resource_type = NodeType.Model)
    (hget : dictGet patches node.name = some p) :
    patchNodesLoop ((k, node) :: rest) patches =
      ((k, node.patch p) ::
          (patchNodesLoop rest (dictPop patches node.name).2).1,
        (patchNodesLoop rest (dictPop patches node.name).2).2) := by
  have hpop : dictPop patches node.name = (some p, (dictPop patches node.name).2) := by
    have h1 := dictPop_fst patches node.name
    rw [hget] at h1
    exact Prod.ext h1 rfl
  conv =>
    lhs
    rw [patchNodesLoop]
  rw [if_neg (not_not_intro ht), hpop]

theorem filter_eq_filter_dictPop {α : Type} (patches : List (String × α))
    (k : String) (pred : String × α → Bool)
    (hk : ∀ v, pred (k, v) = false) :
    patches.filter pred = ((dictPop patches k).2).filter pred := by
  induction patches with
  | nil => rfl
  | cons q rest ih =>
    obtain ⟨k', v⟩ := q
    by_cases hkk : k' = k
    · subst hkk
      simp [dictPop, List.filter_cons, hk v]
    · simp only [dictPop, if_neg hkk, List.filter_cons]
      cases hp : pred (k', v) <;> simp [hp, ih]

theorem patchNodesLoop_char (nodes : List (String × ParsedNode))
    (patches : List (String × ParsedNodePatch))
    (hm : (modelNames nodes).Nodup)
    (hp : (patches.map Prod.fst).Nodup) :
    (patchNodesLoop nodes patches).1 = nodes.map (fun q =>
        if q.2.resource_type = NodeType.Model then
          match dictGet patches q.2.name with
          | some p => (q.1, q.2.patch p)
          | none => q
        else q) ∧
      (patchNodesLoop nodes patches).2 =
        patches.filter (fun q => decide (q.1 ∉ modelNames nodes)) := by
  induction nodes generalizing patches with
  | nil =>
    simp [patchNodesLoop, modelNames]
  | cons q rest ih =>
    obtain ⟨k, node⟩ := q
    by_cases ht : node.resource_type = NodeType.Model
    · rw [modelNames_cons_model k rest ht] at hm
      simp only [List.nodup_cons] at hm
      cases hget : dictGet patches node.name with
      | none =>
        rw [patchNodesLoop_cons_miss k rest patches ht hget]
        obtain ⟨ih1, ih2⟩ := ih patches hm.2 hp
        refine ⟨?_, ?_⟩
        · simp only [List.map_cons, ih1, if_pos ht, hget]
        · rw [ih2, modelNames_cons_model k rest ht]
          refine List.filter_congr (fun q hq => ?_)
          have hqk : q.1 ≠ node.name := by
            intro he
            have : (dictGet patches node.name).isSome := by
              rw [dictGet_isSome_iff]
              exact he ▸ List.mem_map_of_mem Prod.fst hq
            rw [hget] at this
            exact Bool.false_ne_true this
          simp [hqk]
      | some p =>
        rw [patchNodesLoop_cons_hit k rest patches ht hget]
        have hp2 : ((dictPop patches node.name).2.map Prod.fst).Nodup :=
          hp.sublist (List.Sublist.map Prod.fst (dictPop_sublist patches node.name))
        obtain ⟨ih1, ih2⟩ := ih (dictPop patches node.name).2 hm.2 hp2
        have hnotmem : node.name ∉ (dictPop patches node.name).2.map Prod.fst :=
          dictPop_not_mem hp hget
        refine ⟨?_, ?_⟩
        · simp only [List.map_cons, ih1, if_pos ht, hget]
          refine congrArg _ (List.map_congr_left (fun q hq => ?_))
          by_cases hqt : q.2.resource_type = NodeType.Model
          · have hqn : q.2.name ≠ node.name := by
              intro he
              exact hm.1 (he ▸ (by
                have : q.2.name ∈ modelNames rest := by
                  rw [modelNames]
                  refine List.mem_map_of_mem _ ?_
                  rw [List.mem_filter]
                  exact ⟨hq, by simp [hqt]⟩
                exact this))
            rw [if_pos hqt, if_pos hqt, dictPop_get_other patches hqn]
          · rw [if_neg hqt, if_neg hqt]
        · rw [ih2, modelNames_cons_model k rest ht]
          rw [filter_eq_filter_dictPop patches node.name _
            (fun v => by simp)]
          refine List.filter_congr (fun q hq => ?_)
          have hqk : q.1 ≠ node.name := by
            intro he
            apply hnotmem
            have hmm := List.mem_map_of_mem Prod.fst hq
            rw [he] at hmm
            exact hmm
          simp [hqk]
    · rw [patchNodesLoop_cons_other k rest patches ht,
        modelNames_cons_other k rest ht] at *
      obtain ⟨ih1, ih2⟩ := ih patches hm hp
      exact ⟨by simp only [List.map_cons, ih1, if_neg ht], ih2⟩

theorem patchNodesLoop_length (xs : List (String × ParsedNode))
    (patches : List (String × ParsedNodePatch)) :
    (patchNodesLoop xs patches).1.length = xs.length := by
  induction xs generalizing patches with
  | nil => rfl
  | cons q rest ih =>
    obtain ⟨k, node⟩ := q
    by_cases ht : node.resource_type = NodeType.Model
    · cases hget : dictGet patches node.name with
      | none => rw [patchNodesLoop_cons_miss k rest patches ht hget]; simp [ih]
      | some p => rw [patchNodesLoop_cons_hit k rest patches ht hget]; simp [ih]
    · rw [patchNodesLoop_cons_other k rest patches ht]; simp [ih]

theorem patchNodesLoop_append (xs ys : List (String × ParsedNode))
    (patches : List (String × ParsedNodePatch)) :
    patchNodesLoop (xs ++ ys) patches =
      ((patchNodesLoop xs patches).1 ++
          (patchNodesLoop ys (patchNodesLoop xs patches).2).1,
        (patchNodesLoop ys (patchNodesLoop xs patches).2).2) := by
  induction xs generalizing patches with
  | nil => simp [patchNodesLoop]
  | cons q rest ih =>
    obtain ⟨k, node⟩ := q
    by_cases ht : node.resource_type = NodeType.Model
    · cases hget : dictGet patches node.name with
      | none =>
        rw [List.cons_append, patchNodesLoop_cons_miss k (rest ++ ys) patches ht hget,
          patchNodesLoop_cons_miss k rest patches ht hget, ih]
        simp
      | some p =>
        rw [List.cons_append, patchNodesLoop_cons_hit k (rest ++ ys) patches ht hget,
          patchNodesLoop_cons_hit k rest patches ht hget, ih]
        simp
    · rw [List.cons_append, patchNodesLoop_cons_other k (rest ++ ys) patches ht,
        patchNodesLoop_cons_other k rest patches ht, ih]
      simp

theorem patchNodesLoop_get_preserve (xs : List (String × ParsedNode))
    (patches : List (String × ParsedNodePatch)) (nm : String)
    (hx : ∀ q ∈ xs, q.2.resource_type = NodeType.Model → q.2.name ≠ nm) :
    dictGet (patchNodesLoop xs patches).2 nm = dictGet patches nm := by
  induction xs generalizing patches with
  | nil => rfl
  | cons q rest ih =>
    obtain ⟨k, node⟩ := q
    have hxrest : ∀ q ∈ rest, q.2.resource_type = NodeType.Model → q.2.name ≠ nm :=
      fun q hq => hx q (List.mem_cons_of_mem _ hq)
    by_cases ht : node.resource_type = NodeType.Model
    · have hname : node.name ≠ nm := hx (k, node) (List.mem_cons_self _ _) ht
      cases hget : dictGet patches node.name with
      | none =>
        rw [patchNodesLoop_cons_miss k rest patches ht hget]
        exact ih patches hxrest
      | some p =>
        rw [patchNodesLoop_cons_hit k rest patches ht hget,
          ih _ hxrest]
        exact dictPop_get_other patches (Ne.symm hname)
    · rw [patchNodesLoop_cons_other k rest patches ht]
      exact ih patches hxrest

theorem patchNodesLoop_patches_sublist (xs : List (String × ParsedNode))
    (patches : List (String × ParsedNodePatch)) :
    (patchNodesLoop xs patches).2.Sublist patches := by
  induction xs generalizing patches with
  | nil => exact List.Sublist.refl _
  | cons q rest ih =>
    obtain ⟨k, node⟩ := q
    by_cases ht : node.resource_type = NodeType.Model
    · cases hget : dictGet patches node.name with
      | none =>
        rw [patchNodesLoop_cons_miss k rest patches ht hget]
        exact ih patches
      | some p =>
        rw [patchNodesLoop_cons_hit k rest patches ht hget]
        exact (ih _).trans (dictPop_sublist patches node.name)
    · rw [patchNodesLoop_cons_other k rest patches ht]
      exact ih patches

/-- C8: `patch_nodes` scans the manifest's nodes in order; each Model-type
node consumes (pops) the patch entry keyed by its name alone — the package
is not part of the match key — and has the patch applied to it; non-Model
nodes and Model nodes with no pending patch are unchanged; the remaining
patch entries are exactly those whose key names no Model node, and each of
them produces exactly one non-fatal diagnostic, the manifest being
untouched by the diagnostic phase and the call never aborting. -/
theorem claim_c8_patch_nodes (m : Manifest)
    (patches : List (String × ParsedNodePatch))
    (hm : (modelNames m.nodes).Nodup)
    (hp : (patches.map Prod.fst).Nodup) :
    ((m.patch_nodes patches).1.nodes = m.nodes.map (fun q =>
        if q.2.resource_type = NodeType.Model then
          match dictGet patches q.2.name with
          | some p => (q.1, q.2.patch p)
          | none => q
        else q) ∧
      (m.patch_nodes patches).2.1 =
        patches.filter (fun q => decide (q.1 ∉ modelNames m.nodes))) ∧
    (m.patch_nodes patches).2.2 =
      ((m.patch_nodes patches).2.1).map (fun q => patchWarning q.2) := by
  obtain ⟨h1, h2⟩ := patchNodesLoop_char m.nodes patches hm hp
  exact ⟨⟨h1, h2⟩, rfl⟩

/-- Witness for C8: `patch_nodes` with the single patch `"customers"`
against a manifest holding a Model node named `"customers"` applies the
patch to that node, leaves the pending-patch map empty, and emits no
diagnostic. -/
theorem claim_c8_witness :
    ((modelNames exManifestPatch.nodes).Nodup ∧
      (([("customers", exPatchCustomers)] :
          List (String × ParsedNodePatch)).map Prod.fst).Nodup ∧
      (exManifestPatch.patch_nodes [("customers", exPatchCustomers)]).2.1 =
        [("customers", exPatchCustomers)].filter
          (fun q => decide (q.1 ∉ modelNames exManifestPatch.nodes))) ∧
    (exManifestPatch.patch_nodes [("customers", exPatchCustomers)]).1.nodes =
      [("model.root.customers", exCustomers.patch exPatchCustomers)] ∧
    (exManifestPatch.patch_nodes [("customers", exPatchCustomers)]).2.1 = [] ∧
    (exManifestPatch.patch_nodes [("customers", exPatchCustomers)]).2.2 = [] :=
  ⟨⟨by decide, by decide,
    ((claim_c8_patch_nodes exManifestPatch [("customers", exPatchCustomers)]
      (by decide) (by decide)).1).2⟩, rfl, rfl, rfl⟩

/-- C10: a patch entry is consumed by at most one node per call — when two
Model nodes share a name, the first in node-mapping iteration order receives
the patch (which is popped), every later same-named Model node is left
unmodified, and no pending entry (hence no diagnostic) remains for that
name. -/
theorem claim_c10_first_model_wins (m : Manifest)
    (patches : List (String × ParsedNodePatch))
    (pre mid post : List (String × ParsedNode)) (k1 k2 : String)
    (n1 n2 : ParsedNode) (nm : String) (p : ParsedNodePatch)
    (hnodes : m.nodes = pre ++ (k1, n1) :: (mid ++ (k2, n2) :: post))
    (h1t : n1.resource_type = NodeType.Model) (h1n : n1.name = nm)
    (h2t : n2.resource_type = NodeType.Model) (h2n : n2.name = nm)
    (hpre : ∀ q ∈ pre, q.2.resource_type = NodeType.Model → q.2.name ≠ nm)
    (hget : dictGet patches nm = some p)
    (hp : (patches.map Prod.fst).Nodup) :
    ∃ pre2 mid2 post2,
      (m.patch_nodes patches).1.nodes =
        pre2 ++ (k1, n1.patch p) :: (mid2 ++ (k2, n2) :: post2) ∧
      pre2.length = pre.length ∧ mid2.length = mid.length ∧
      nm ∉ ((m.patch_nodes patches).2.1).map Prod.fst ∧
      (m.patch_nodes patches).2.2 =
        ((m.patch_nodes patches).2.1).map (fun q => patchWarning q.2) := by
  subst h1n
  have hgetpre : dictGet (patchNodesLoop pre patches).2 n1.name = some p := by
    rw [patchNodesLoop_get_preserve pre patches n1.name hpre]
    exact hget
  have hndpre : ((patchNodesLoop pre patches).2.map Prod.fst).Nodup :=
    hp.sublist (List.Sublist.map Prod.fst (patchNodesLoop_patches_sublist pre patches))
  have hnm2 : n1.name ∉
      ((dictPop (patchNodesLoop pre patches).2 n1.name).2).map Prod.fst :=
    dictPop_not_mem hndpre hgetpre
  have hnm3 : n1.name ∉
      ((patchNodesLoop mid
        (dictPop (patchNodesLoop pre patches).2 n1.name).2).2).map Prod.fst := by
    intro hmem
    exact hnm2 ((List.Sublist.map Prod.fst (patchNodesLoop_patches_sublist mid
      (dictPop (patchNodesLoop pre patches).2 n1.name).2)).subset hmem)
  have hget3 : dictGet
      (patchNodesLoop mid
        (dictPop (patchNodesLoop pre patches).2 n1.name).2).2 n2.name = none := by
    rw [h2n]
    exact (dictGet_eq_none_iff _ _).mpr hnm3
  have hnmfinal : n1.name ∉
      ((patchNodesLoop post
        (patchNodesLoop mid
          (dictPop (patchNodesLoop pre patches).2 n1.name).2).2).2).map Prod.fst := by
    intro hmem
    exact hnm3 ((List.Sublist.map Prod.fst (patchNodesLoop_patches_sublist post
      _)).subset hmem)
  refine ⟨(patchNodesLoop pre patches).1,
    (patchNodesLoop mid (dictPop (patchNodesLoop pre patches).2 n1.name).2).1,
    (patchNodesLoop post
      (patchNodesLoop mid
        (dictPop (patchNodesLoop pre patches).2 n1.name).2).2).1,
    ?_, patchNodesLoop_length pre patches, patchNodesLoop_length mid _, ?_, rfl⟩
  · show (patchNodesLoop m.nodes patches).1 = _
    rw [hnodes, patchNodesLoop_append pre _ patches,
      patchNodesLoop_cons_hit k1 (mid ++ (k2, n2) :: post)
        (patchNodesLoop pre patches).2 h1t hgetpre,
      patchNodesLoop_append mid _ _,
      patchNodesLoop_cons_miss k2 post _ h2t hget3]
  · show n1.name ∉ ((patchNodesLoop m.nodes patches).2).map Prod.fst
    rw [hnodes, patchNodesLoop_append pre _ patches,
      patchNodesLoop_cons_hit k1 (mid ++ (k2, n2) :: post)
        (patchNodesLoop pre patches).2 h1t hgetpre,
      patchNodesLoop_append mid _ _,
      patchNodesLoop_cons_miss k2 post _ h2t hget3]
    exact hnmfinal

/-- Witness for C10: with two Model nodes named `"customers"` across
packages, only the first receives the patch; the second stays unmodified
and no pending entry remains for the name. -/
theorem claim_c10_witness :
    (exCustomers.resource_type = NodeType.Model ∧
      exCustomers.name = "customers" ∧
      exCustomersOther.resource_type = NodeType.Model ∧
      exCustomersOther.name = "customers" ∧
      dictGet [("customers", exPatchCustomers)] "customers" =
        some exPatchCustomers ∧
      (([("customers", exPatchCustomers)] :
        List (String × ParsedNodePatch)).map Prod.fst).Nodup) ∧
    (∃ pre2 mid2 post2,
      (exManifestPatchDup.patch_nodes [("customers", exPatchCustomers)]).1.nodes =
        pre2 ++ ("model.root.customers", exCustomers.patch exPatchCustomers) ::
          (mid2 ++ ("model.other.customers", exCustomersOther) :: post2) ∧
      pre2.length = 0 ∧ mid2.length = 0 ∧
      "customers" ∉
        ((exManifestPatchDup.patch_nodes
          [("customers", exPatchCustomers)]).2.1).map Prod.fst ∧
      (exManifestPatchDup.patch_nodes [("customers", exPatchCustomers)]).2.2 =
        ((exManifestPatchDup.patch_nodes
          [("customers", exPatchCustomers)]).2.1).map
            (fun q => patchWarning q.2)) :=
  ⟨⟨by decide, by decide, by decide, by decide, by decide, by decide⟩,
    claim_c10_first_model_wins exManifestPatchDup
      [("customers", exPatchCustomers)] [] [] [] "model.root.customers"
      "model.other.customers" exCustomers exCustomersOther "customers"
      exPatchCustomers rfl (by decide) (by decide) (by decide) (by decide)
      (by decide) (by decide) (by decide)⟩

end Dbt
